import Mathlib

/-!
Verification of the `summarizer` text-scoring utility.

The program splits a body text into units (paragraphs, sentences, or
pattern-delimited chunks), builds a word-frequency table over the whole
body, removes tokens found in an exclusion text, scores each unit by
summing the frequencies of its tokens, stably sorts descending by
score, and `run` selects the first `take` results, re-sorts them by
original position and joins them with a blank line.

Texts are modelled as `List Char`; the `HashMap<&str, usize>` is
modelled as an association list with unique keys, with `entry(x)
.or_insert(0)` semantics reproduced faithfully (insert-on-miss appends
a zero entry).  The stable `sort_by` of Rust slices is modelled by a
stable insertion sort.
-/

/-- Texts and tokens: sequences of characters. -/
abbrev Str := List Char

/-- Word separators (`is_delimiter` in the source). -/
def is_delimiter (c : Char) : Bool :=
  match c with
  | '.' | '!' | '?' | ',' | ';' | ')'
  | '(' | '\x7b' | '\x7d' | '[' | ']' | ':'
  | '\x22' | '\x27' | '\r' | '\n' | '\t' | ' ' => true
  | _ => false

/-- Rust `str::split` with a `char`-predicate pattern: splits at every
matching character, keeping (possibly empty) substrings between
delimiters; the empty text yields one empty token. -/
def splitOnPred (p : Char → Bool) : Str → List Str
  | [] => [[]]
  | c :: rest =>
    if p c then [] :: splitOnPred p rest
    else
      match splitOnPred p rest with
      | [] => [[c]]
      | t :: ts => (c :: t) :: ts

/-- Rust `str::split` with a nonempty literal string pattern: leftmost,
non-overlapping matches; separators are discarded. -/
def splitSepCore (sep : Str) : Str → List Str
  | [] => [[]]
  | c :: rest =>
    if sep ≠ [] ∧ sep.isPrefixOf (c :: rest) then
      [] :: splitSepCore sep (List.drop (sep.length - 1) rest)
    else
      match splitSepCore sep rest with
      | [] => [[c]]
      | t :: ts => (c :: t) :: ts
  termination_by s => s.length
  decreasing_by
  · simp only [List.length_cons]
    have h1 : (List.drop (sep.length - 1) rest).length ≤ rest.length :=
      Nat.le_trans (by simp [List.length_drop]) (Nat.le_refl _)
    exact Nat.lt_succ_of_le h1
  · simp [Nat.lt_succ_self]

/-- Rust `str::split` with a literal string pattern, including the
empty pattern (which matches at every character boundary, so
`"abc".split("") = ["", "a", "b", "c", ""]`). -/
def splitSep (sep : Str) (s : Str) : List Str :=
  if sep = [] then [] :: (s.map (fun c => [c]) ++ [[]])
  else splitSepCore sep s

/-- The word→count table (`HashMap<&str, usize>` in the source),
modelled as an association list with unique keys. -/
abbrev Table := List (Str × Nat)

/-- Lookup in the table (`HashMap::get`): the value stored at key `k`. -/
def tableFind (m : Table) (k : Str) : Option Nat :=
  match m with
  | [] => none
  | (k2, v) :: rest => if k2 = k then some v else tableFind rest k

/-- Counting step `map.entry(word).or_insert(0); *count += 1` of `freq_analysis`. -/
def tableBump (m : Table) (k : Str) : Table :=
  match m with
  | [] => [(k, 1)]
  | (k2, v) :: rest =>
    if k2 = k then (k2, v + 1) :: rest else (k2, v) :: tableBump rest k

/-- Removal (`HashMap::remove`): deletes the entry at `k` when present. -/
def tableRemove (m : Table) (k : Str) : Table :=
  match m with
  | [] => []
  | (k2, v) :: rest => if k2 = k then rest else (k2, v) :: tableRemove rest k

/-- Read of `words.entry(x).or_insert(0)` followed by taking the count: on a
miss a zero entry is inserted and 0 is read. -/
def tableEntryZero (m : Table) (k : Str) : Table × Nat :=
  match tableFind m k with
  | some v => (m, v)
  | none => (m ++ [(k, 0)], 0)

/-- Word-count construction (`freq_analysis` in the source). -/
def freq_analysis (wordlist : List Str) : Table :=
  wordlist.foldl tableBump []

/-- Results from summary analysis (`Digest` in the source). -/
structure Digest where
  text : Str
  score : Nat
  index : Nat
deriving DecidableEq

/-- Type of paragraph to delimit (`Paragraph` in the source). -/
inductive Paragraph where
  | Unix
  | Windows
deriving DecidableEq

/-- Type of summary to return (`Summary` in the source). -/
inductive Summary where
  | Paragraph (p : Paragraph)
  | Sentence
  | Pattern (p : Str)
deriving DecidableEq

/-- The unit-splitting step of `analyze`: which separator the chosen
`Summary` mode applies to the body text. -/
def splitUnits (summary : Summary) (text : Str) : List Str :=
  match summary with
  | Summary.Paragraph Paragraph.Windows => splitSep ['\r', '\n', '\r', '\n'] text
  | Summary.Paragraph Paragraph.Unix => splitSep ['\n', '\n'] text
  | Summary.Sentence => splitOnPred (fun c => c = '.' ∨ c = '?' ∨ c = '!') text
  | Summary.Pattern p => splitSep p text

/-- The post-exclusion frequency table: word counts over the whole body
text with every token of the exclusion text removed. -/
def postTable (exclude text : Str) : Table :=
  (splitOnPred is_delimiter exclude).foldl tableRemove
    (freq_analysis (splitOnPred is_delimiter text))

/-- One step of the scoring fold:
`|acc, x| acc + *words.entry(x).or_insert(0)` together with the table
it may have grown. -/
def scoreStep (p : Table × Nat) (x : Str) : Table × Nat :=
  let q := tableEntryZero p.1 x
  (q.1, p.2 + q.2)

/-- The scoring fold of one unit:
`paragraph.split(is_delimiter).fold(0, |acc, x| acc + *words.entry(x).or_insert(0))`,
returning the (possibly grown) table together with the score. -/
def scoreUnit (m : Table) (toks : List Str) : Table × Nat :=
  toks.foldl scoreStep (m, 0)

/-- The enumeration loop of `analyze`: scores each unit in order,
threading the mutable table, and records zero-based indices. -/
def analyzeLoop (m : Table) (units : List Str) (index : Nat) : List Digest :=
  match units with
  | [] => []
  | u :: rest =>
    let r := scoreUnit m (splitOnPred is_delimiter u)
    ⟨u, r.2, index⟩ :: analyzeLoop r.1 rest (index + 1)

/-- One step of the stable descending insertion sort modelling the
stable `scores.sort_by(|a, b| b.score.cmp(&a.score))`. -/
def insertDesc (d : Digest) : List Digest → List Digest
  | [] => [d]
  | x :: xs => if x.score ≤ d.score then d :: x :: xs else x :: insertDesc d xs

/-- Stable sort, descending by score. -/
def sortDesc (l : List Digest) : List Digest :=
  l.foldr insertDesc []

/-- One step of the stable ascending-by-index insertion sort modelling
the stable `top.sort_by(|a, b| a.index.cmp(&b.index))`. -/
def insertAsc (d : Digest) : List Digest → List Digest
  | [] => [d]
  | x :: xs => if d.index ≤ x.index then d :: x :: xs else x :: insertAsc d xs

/-- Stable sort, ascending by original index. -/
def sortAsc (l : List Digest) : List Digest :=
  l.foldr insertAsc []

/-- The pure value of `analyze` (the source always wraps it in `Ok`). -/
def analyzeDigests (exclude text : Str) (summary : Summary) : List Digest :=
  sortDesc (analyzeLoop (postTable exclude text) (splitUnits summary text) 0)

/-- I/O errors surfaced by `read`; the payload distinguishes errors. -/
structure IOErr where
  code : Nat
deriving DecidableEq, Repr

/-- Operation `analyze` from the source: the in-memory pipeline, wrapped in `Ok`. -/
def analyze (exclude text : Str) (summary : Summary) :
    Except IOErr (List Digest) :=
  Except.ok (analyzeDigests exclude text summary)

/-- The selection step of `run`: take the first `take` ranked results
and re-sort them ascending by original index. -/
def select (pg : List Digest) (take : Nat) : List Digest :=
  sortAsc (pg.take take)

/-- Operation `run` from the source, with the two `read` results supplied as
values (the shallow embedding of the two file reads). -/
def run (exclude_read text_read : Except IOErr Str) (summary : Summary)
    (take : Nat) : Except IOErr Str :=
  match exclude_read, text_read with
  | Except.ok exclude, Except.ok text =>
    match analyze exclude text summary with
    | Except.ok pg =>
      Except.ok (List.intercalate ['\n', '\n'] ((select pg take).map Digest.text))
    | Except.error e => Except.error e
  | Except.error e, Except.ok _ => Except.error e
  | Except.ok _, Except.error e => Except.error e
  | Except.error e, Except.error _ => Except.error e

/-- Reference scoring from the spec's words: the sum, over every token
of the unit re-tokenized with the delimiter set, of that token's value
in the post-exclusion table, absent tokens contributing zero. -/
def scoreSpec (m : Table) (unit : Str) : Nat :=
  ((splitOnPred is_delimiter unit).map (fun t => (tableFind m t).getD 0)).sum

/-- Sum of the table values of a token list, absent tokens counting 0. -/
def tokenSum (m : Table) (toks : List Str) : Nat :=
  (toks.map (fun t => (tableFind m t).getD 0)).sum

/-- Two tables agree on every lookup once a missing key is read as 0.
This is the invariant preserved by the insert-on-miss growth during
scoring. -/
def SameD (m m0 : Table) : Prop :=
  ∀ k, (tableFind m k).getD 0 = (tableFind m0 k).getD 0

/-- The keys of the table are pairwise distinct, as in a `HashMap`. -/
def UniqKeys (m : Table) : Prop :=
  m.Pairwise (fun a b => a.1 ≠ b.1)

/-- The ranking relation established by the stable descending sort:
strictly larger score, or equal score and earlier original position. -/
def rankedBefore (a b : Digest) : Prop :=
  b.score < a.score ∨ (a.score = b.score ∧ a.index < b.index)

/-- The `Summary` modes whose separator is a nonempty string or a
character class: all modes except `Pattern` with the empty pattern. -/
def sepNonempty : Summary → Prop
  | Summary.Pattern p => p ≠ []
  | _ => True

/-! ### Table lemmas -/

theorem tableFind_append (m1 m2 : Table) (k : Str) :
    tableFind (m1 ++ m2) k =
      match tableFind m1 k with
      | some v => some v
      | none => tableFind m2 k := by
  induction m1 with
  | nil => simp [tableFind]
  | cons e rest ih =>
    obtain ⟨k2, v⟩ := e
    by_cases h : k2 = k <;> simp [tableFind, h, ih]

theorem tableEntryZero_snd (m : Table) (k : Str) :
    (tableEntryZero m k).2 = (tableFind m k).getD 0 := by
  unfold tableEntryZero
  cases h : tableFind m k <;> simp [h]

theorem SameD.refl (m : Table) : SameD m m := fun _ => rfl

theorem SameD.trans {m1 m2 m3 : Table} (h1 : SameD m1 m2) (h2 : SameD m2 m3) :
    SameD m1 m3 := fun k => (h1 k).trans (h2 k)

theorem tableEntryZero_sameD (m : Table) (k : Str) :
    SameD (tableEntryZero m k).1 m := by
  intro k2
  unfold tableEntryZero
  cases h : tableFind m k with
  | some v => rfl
  | none =>
    simp only []
    rw [tableFind_append]
    cases h2 : tableFind m k2 with
    | some v => simp
    | none =>
      by_cases hk : k = k2
      · subst hk
        simp [tableFind, h]
      · simp [tableFind, hk]

theorem scoreUnit_foldl (toks : List Str) :
    ∀ (m : Table) (acc : Nat) (m0 : Table), SameD m m0 →
      (toks.foldl scoreStep (m, acc)).2 = acc + tokenSum m0 toks
      ∧ SameD (toks.foldl scoreStep (m, acc)).1 m0 := by
  induction toks with
  | nil =>
    intro m acc m0 h
    exact ⟨by simp [tokenSum], h⟩
  | cons x xs ih =>
    intro m acc m0 h
    have hs : SameD (tableEntryZero m x).1 m0 :=
      SameD.trans (tableEntryZero_sameD m x) h
    have h2 := ih (tableEntryZero m x).1 (acc + (tableEntryZero m x).2) m0 hs
    constructor
    · rw [List.foldl_cons]
      show ((xs.foldl scoreStep ((tableEntryZero m x).1, acc + (tableEntryZero m x).2))).2 = _
      rw [h2.1, tableEntryZero_snd, h x]
      simp [tokenSum, Nat.add_assoc]
    · rw [List.foldl_cons]
      exact h2.2

theorem scoreUnit_snd {m m0 : Table} (toks : List Str) (h : SameD m m0) :
    (scoreUnit m toks).2 = tokenSum m0 toks := by
  have := (scoreUnit_foldl toks m 0 m0 h).1
  simpa [scoreUnit] using this

theorem scoreUnit_sameD {m m0 : Table} (toks : List Str) (h : SameD m m0) :
    SameD (scoreUnit m toks).1 m0 :=
  (scoreUnit_foldl toks m 0 m0 h).2

theorem mem_tableBump_key {m : Table} {k : Str} {b : Str × Nat}
    (hb : b ∈ tableBump m k) : b.1 = k ∨ b.1 ∈ m.map Prod.fst := by
  induction m with
  | nil =>
    rw [tableBump, List.mem_singleton] at hb
    left
    rw [hb]
  | cons e rest ih =>
    obtain ⟨k2, v⟩ := e
    by_cases h : k2 = k
    · rw [tableBump, if_pos h, List.mem_cons] at hb
      rcases hb with hb | hb
      · left
        rw [hb, h]
      · right
        rw [List.map_cons, List.mem_cons]
        exact Or.inr (List.mem_map_of_mem Prod.fst hb)
    · rw [tableBump, if_neg h, List.mem_cons] at hb
      rcases hb with hb | hb
      · right
        rw [hb, List.map_cons]
        exact List.mem_cons_self _ _
      · rcases ih hb with h2 | h2
        · exact Or.inl h2
        · right
          rw [List.map_cons, List.mem_cons]
          exact Or.inr h2

theorem uniqKeys_bump {m : Table} (k : Str) (h : UniqKeys m) :
    UniqKeys (tableBump m k) := by
  induction m with
  | nil => simp [tableBump, UniqKeys]
  | cons e rest ih =>
    obtain ⟨k2, v⟩ := e
    rw [UniqKeys, List.pairwise_cons] at h
    by_cases hk : k2 = k
    · rw [UniqKeys, tableBump, if_pos hk, List.pairwise_cons]
      exact ⟨h.1, h.2⟩
    · rw [UniqKeys, tableBump, if_neg hk, List.pairwise_cons]
      constructor
      · intro b hb
        rcases mem_tableBump_key hb with h2 | h2
        · rw [h2]; exact hk
        · rcases List.mem_map.mp h2 with ⟨b', hb', he⟩
          rw [← he]
          exact h.1 b' hb'
      · exact ih h.2

theorem uniqKeys_freq (ws : List Str) : UniqKeys (freq_analysis ws) := by
  have main : ∀ (l : List Str) (m : Table), UniqKeys m →
      UniqKeys (l.foldl tableBump m) := by
    intro l
    induction l with
    | nil => intro m h; exact h
    | cons x xs ih =>
      intro m h
      exact ih (tableBump m x) (uniqKeys_bump x h)
  exact main ws [] (by simp [UniqKeys])

theorem mem_tableRemove {m : Table} {k : Str} {b : Str × Nat}
    (hb : b ∈ tableRemove m k) : b ∈ m := by
  induction m with
  | nil =>
    rw [tableRemove] at hb
    exact absurd hb (List.not_mem_nil b)
  | cons e rest ih =>
    obtain ⟨k2, v⟩ := e
    by_cases h : k2 = k
    · rw [tableRemove, if_pos h] at hb
      exact List.mem_cons_of_mem _ hb
    · rw [tableRemove, if_neg h, List.mem_cons] at hb
      rcases hb with hb | hb
      · rw [hb]
        exact List.mem_cons_self _ _
      · exact List.mem_cons_of_mem _ (ih hb)

theorem uniqKeys_remove {m : Table} (k : Str) (h : UniqKeys m) :
    UniqKeys (tableRemove m k) := by
  induction m with
  | nil => simp [tableRemove, UniqKeys]
  | cons e rest ih =>
    obtain ⟨k2, v⟩ := e
    rw [UniqKeys, List.pairwise_cons] at h
    by_cases hk : k2 = k
    · rw [tableRemove, if_pos hk]
      exact h.2
    · rw [UniqKeys, tableRemove, if_neg hk, List.pairwise_cons]
      exact ⟨fun b hb => h.1 b (mem_tableRemove hb), ih h.2⟩

theorem tableFind_eq_none_of_not_key {m : Table} {k : Str}
    (h : ∀ b ∈ m, b.1 ≠ k) : tableFind m k = none := by
  induction m with
  | nil => rfl
  | cons e rest ih =>
    obtain ⟨k2, v⟩ := e
    have h1 : k2 ≠ k := h (k2, v) (by simp)
    rw [tableFind, if_neg h1]
    exact ih fun b hb => h b (List.mem_cons_of_mem _ hb)

theorem tableFind_remove_self {m : Table} (k : Str) (h : UniqKeys m) :
    tableFind (tableRemove m k) k = none := by
  induction m with
  | nil => rfl
  | cons e rest ih =>
    obtain ⟨k2, v⟩ := e
    rw [UniqKeys, List.pairwise_cons] at h
    by_cases hk : k2 = k
    · rw [tableRemove, if_pos hk]
      exact tableFind_eq_none_of_not_key fun b hb => by
        rw [← hk]; exact (h.1 b hb).symm
    · rw [tableRemove, if_neg hk, tableFind, if_neg hk]
      exact ih h.2

theorem tableFind_remove_other {m : Table} {k j : Str} (h : j ≠ k) :
    tableFind (tableRemove m j) k = tableFind m k := by
  induction m with
  | nil => rfl
  | cons e rest ih =>
    obtain ⟨k2, v⟩ := e
    by_cases hj : k2 = j
    · rw [tableRemove, if_pos hj, tableFind, if_neg (by rw [hj]; exact h)]
    · by_cases hk : k2 = k
      · rw [tableRemove, if_neg hj, tableFind, if_pos hk, tableFind, if_pos hk]
      · rw [tableRemove, if_neg hj, tableFind, if_neg hk, tableFind, if_neg hk]
        exact ih

theorem tableFind_foldl_remove (ks : List Str) :
    ∀ (m : Table), UniqKeys m → ∀ (k : Str),
      tableFind (ks.foldl tableRemove m) k =
        if k ∈ ks then none else tableFind m k := by
  induction ks with
  | nil => intro m _ k; simp
  | cons j ks2 ih =>
    intro m hm k
    rw [List.foldl_cons, ih (tableRemove m j) (uniqKeys_remove j hm) k]
    by_cases h2 : k ∈ ks2
    · simp [h2]
    · by_cases hj : k = j
      · subst hj
        simp [h2, tableFind_remove_self k hm]
      · simp [h2, hj, tableFind_remove_other (Ne.symm hj)]

theorem uniqKeys_postTable (exclude text : Str) : UniqKeys (postTable exclude text) := by
  rw [postTable]
  have main : ∀ (l : List Str) (m : Table), UniqKeys m →
      UniqKeys (l.foldl tableRemove m) := by
    intro l
    induction l with
    | nil => intro m h; exact h
    | cons x xs ih => intro m h; exact ih (tableRemove m x) (uniqKeys_remove x h)
  exact main _ _ (uniqKeys_freq _)

theorem tableFind_postTable (exclude text k : Str) :
    tableFind (postTable exclude text) k =
      if k ∈ splitOnPred is_delimiter exclude then none
      else tableFind (freq_analysis (splitOnPred is_delimiter text)) k := by
  rw [postTable]
  exact tableFind_foldl_remove _ _ (uniqKeys_freq _) k

/-! ### Lemmas about the scoring loop -/

theorem analyzeLoop_texts (units : List Str) :
    ∀ (m : Table) (i : Nat), (analyzeLoop m units i).map Digest.text = units := by
  induction units with
  | nil => intro m i; rfl
  | cons u rest ih =>
    intro m i
    rw [analyzeLoop, List.map_cons, ih]

theorem analyzeLoop_length (units : List Str) (m : Table) (i : Nat) :
    (analyzeLoop m units i).length = units.length := by
  have h := congrArg List.length (analyzeLoop_texts units m i)
  rwa [List.length_map] at h

theorem analyzeLoop_indices (units : List Str) :
    ∀ (m : Table) (i : Nat),
      (analyzeLoop m units i).map Digest.index = List.range' i units.length := by
  induction units with
  | nil => intro m i; rfl
  | cons u rest ih =>
    intro m i
    rw [analyzeLoop, List.map_cons, ih, List.length_cons, List.range'_succ]

theorem analyzeLoop_scores (units : List Str) :
    ∀ (m m0 : Table) (i : Nat), SameD m m0 →
      ∀ d ∈ analyzeLoop m units i,
        d.score = tokenSum m0 (splitOnPred is_delimiter d.text) := by
  induction units with
  | nil =>
    intro m m0 i _ d hd
    exact absurd hd (List.not_mem_nil d)
  | cons u rest ih =>
    intro m m0 i h d hd
    rw [analyzeLoop, List.mem_cons] at hd
    rcases hd with hd | hd
    · rw [hd]
      exact scoreUnit_snd _ h
    · exact ih _ m0 (i + 1) (scoreUnit_sameD _ h) d hd

theorem analyzeLoop_index_lb (units : List Str) :
    ∀ (m : Table) (i : Nat) (d : Digest), d ∈ analyzeLoop m units i → i ≤ d.index := by
  induction units with
  | nil =>
    intro m i d hd
    exact absurd hd (List.not_mem_nil d)
  | cons u rest ih =>
    intro m i d hd
    rw [analyzeLoop, List.mem_cons] at hd
    rcases hd with hd | hd
    · rw [hd]
    · exact Nat.le_of_succ_le (ih _ (i + 1) d hd)

theorem analyzeLoop_pairwise (units : List Str) :
    ∀ (m : Table) (i : Nat),
      (analyzeLoop m units i).Pairwise (fun a b => a.index < b.index) := by
  induction units with
  | nil => intro m i; exact List.Pairwise.nil
  | cons u rest ih =>
    intro m i
    rw [analyzeLoop, List.pairwise_cons]
    constructor
    · intro b hb
      exact Nat.lt_of_succ_le (analyzeLoop_index_lb rest _ (i + 1) b hb)
    · exact ih _ (i + 1)

/-! ### Lemmas about the two stable sorts -/

theorem insertDesc_perm (d : Digest) (xs : List Digest) :
    List.Perm (insertDesc d xs) (d :: xs) := by
  induction xs with
  | nil => exact List.Perm.refl _
  | cons x xs2 ih =>
    rw [insertDesc]
    by_cases h : x.score ≤ d.score
    · rw [if_pos h]
    · rw [if_neg h]
      exact List.Perm.trans (List.Perm.cons x ih) (List.Perm.swap d x xs2)

theorem sortDesc_perm (l : List Digest) : List.Perm (sortDesc l) l := by
  induction l with
  | nil => exact List.Perm.refl _
  | cons a l2 ih =>
    have h1 : sortDesc (a :: l2) = insertDesc a (sortDesc l2) := rfl
    rw [h1]
    exact List.Perm.trans (insertDesc_perm a (sortDesc l2)) (List.Perm.cons a ih)

theorem mem_insertDesc {d y : Digest} {xs : List Digest} :
    y ∈ insertDesc d xs ↔ y = d ∨ y ∈ xs := by
  rw [(insertDesc_perm d xs).mem_iff, List.mem_cons]

theorem insertAsc_perm (d : Digest) (xs : List Digest) :
    List.Perm (insertAsc d xs) (d :: xs) := by
  induction xs with
  | nil => exact List.Perm.refl _
  | cons x xs2 ih =>
    rw [insertAsc]
    by_cases h : d.index ≤ x.index
    · rw [if_pos h]
    · rw [if_neg h]
      exact List.Perm.trans (List.Perm.cons x ih) (List.Perm.swap d x xs2)

theorem sortAsc_perm (l : List Digest) : List.Perm (sortAsc l) l := by
  induction l with
  | nil => exact List.Perm.refl _
  | cons a l2 ih =>
    have h1 : sortAsc (a :: l2) = insertAsc a (sortAsc l2) := rfl
    rw [h1]
    exact List.Perm.trans (insertAsc_perm a (sortAsc l2)) (List.Perm.cons a ih)

theorem rankedBefore_score_le {a b : Digest} (h : rankedBefore a b) :
    b.score ≤ a.score := by
  rcases h with h | h
  · exact Nat.le_of_lt h
  · exact Nat.le_of_eq h.1.symm

theorem rankedBefore_of_le_of_index {a b : Digest} (hs : b.score ≤ a.score)
    (hi : a.index < b.index) : rankedBefore a b := by
  rcases Nat.lt_or_ge b.score a.score with h | h
  · exact Or.inl h
  · exact Or.inr ⟨Nat.le_antisymm h hs, hi⟩

theorem insertDesc_pairwise (d : Digest) (xs : List Digest)
    (hd : ∀ x ∈ xs, d.index < x.index)
    (hxs : xs.Pairwise rankedBefore) :
    (insertDesc d xs).Pairwise rankedBefore := by
  induction xs with
  | nil =>
    rw [insertDesc]
    exact List.pairwise_singleton _ _
  | cons x xs2 ih =>
    rw [List.pairwise_cons] at hxs
    rw [insertDesc]
    by_cases h : x.score ≤ d.score
    · rw [if_pos h, List.pairwise_cons]
      constructor
      · intro y hy
        rw [List.mem_cons] at hy
        rcases hy with hy | hy
        · rw [hy]
          exact rankedBefore_of_le_of_index h (hd x (List.mem_cons_self _ _))
        · have h1 : y.score ≤ x.score := rankedBefore_score_le (hxs.1 y hy)
          exact rankedBefore_of_le_of_index (Nat.le_trans h1 h)
            (hd y (List.mem_cons_of_mem _ hy))
      · rw [List.pairwise_cons]
        exact hxs
    · rw [if_neg h, List.pairwise_cons]
      constructor
      · intro y hy
        rcases mem_insertDesc.mp hy with hy | hy
        · rw [hy]
          exact Or.inl (Nat.lt_of_not_le h)
        · exact hxs.1 y hy
      · exact ih (fun y hy => hd y (List.mem_cons_of_mem _ hy)) hxs.2

theorem sortDesc_pairwise (l : List Digest)
    (h : l.Pairwise (fun a b => a.index < b.index)) :
    (sortDesc l).Pairwise rankedBefore := by
  induction l with
  | nil => exact List.Pairwise.nil
  | cons a l2 ih =>
    rw [List.pairwise_cons] at h
    have h1 : sortDesc (a :: l2) = insertDesc a (sortDesc l2) := rfl
    rw [h1]
    exact insertDesc_pairwise a (sortDesc l2)
      (fun x hx => h.1 x ((sortDesc_perm l2).mem_iff.mp hx)) (ih h.2)

theorem insertAsc_pairwise (d : Digest) (xs : List Digest)
    (hxs : xs.Pairwise (fun a b => a.index ≤ b.index)) :
    (insertAsc d xs).Pairwise (fun a b => a.index ≤ b.index) := by
  induction xs with
  | nil =>
    rw [insertAsc]
    exact List.pairwise_singleton _ _
  | cons x xs2 ih =>
    rw [List.pairwise_cons] at hxs
    rw [insertAsc]
    by_cases h : d.index ≤ x.index
    · rw [if_pos h, List.pairwise_cons]
      constructor
      · intro y hy
        rw [List.mem_cons] at hy
        rcases hy with hy | hy
        · rw [hy]; exact h
        · exact Nat.le_trans h (hxs.1 y hy)
      · rw [List.pairwise_cons]
        exact hxs
    · rw [if_neg h, List.pairwise_cons]
      constructor
      · intro y hy
        rcases List.mem_cons.mp ((insertAsc_perm d xs2).mem_iff.mp hy) with hy | hy
        · rw [hy]
          exact Nat.le_of_lt (Nat.lt_of_not_le h)
        · exact hxs.1 y hy
      · exact ih hxs.2

theorem sortAsc_pairwise (l : List Digest) :
    (sortAsc l).Pairwise (fun a b => a.index ≤ b.index) := by
  induction l with
  | nil => exact List.Pairwise.nil
  | cons a l2 ih =>
    have h1 : sortAsc (a :: l2) = insertAsc a (sortAsc l2) := rfl
    rw [h1]
    exact insertAsc_pairwise a (sortAsc l2) ih

/-! ### Further consequences used by the claims -/

theorem tokenSum_cons (m0 : Table) (x : Str) (xs : List Str) :
    tokenSum m0 (x :: xs) = (tableFind m0 x).getD 0 + tokenSum m0 xs := by
  simp [tokenSum]

theorem tokenSum_filter_ne (m0 : Table) (W : Str)
    (h0 : (tableFind m0 W).getD 0 = 0) (toks : List Str) :
    tokenSum m0 toks = tokenSum m0 (toks.filter (fun t => t ≠ W)) := by
  induction toks with
  | nil => rfl
  | cons x xs ih =>
    by_cases h : x = W
    · subst h
      have hfil : (x :: xs).filter (fun t => t ≠ x) = xs.filter (fun t => t ≠ x) := by
        simp
      rw [hfil, ← ih, tokenSum_cons, h0, Nat.zero_add]
    · have hfil : (x :: xs).filter (fun t => t ≠ W) =
          x :: xs.filter (fun t => t ≠ W) := by
        simp [h]
      rw [hfil, tokenSum_cons, tokenSum_cons, ih]

theorem select_all (E T : Str) (m : Summary) (take : Nat)
    (h : (splitUnits m T).length ≤ take) :
    select (analyzeDigests E T m) take =
      analyzeLoop (postTable E T) (splitUnits m T) 0 := by
  have hlen : (analyzeDigests E T m).length ≤ take := by
    rw [analyzeDigests, (sortDesc_perm _).length_eq, analyzeLoop_length]
    exact h
  have htake : (analyzeDigests E T m).take take = analyzeDigests E T m :=
    List.take_of_length_le hlen
  rw [select, htake]
  have hperm : List.Perm (sortAsc (analyzeDigests E T m))
      (analyzeLoop (postTable E T) (splitUnits m T) 0) :=
    (sortAsc_perm _).trans (sortDesc_perm _)
  have hle : (sortAsc (analyzeDigests E T m)).Pairwise
      (fun a b => a.index ≤ b.index) := sortAsc_pairwise _
  have hmapperm : List.Perm ((sortAsc (analyzeDigests E T m)).map Digest.index)
      (List.range (splitUnits m T).length) := by
    have h2 := hperm.map Digest.index
    rw [analyzeLoop_indices] at h2
    rw [List.range_eq_range']
    exact h2
  have hnodup : ((sortAsc (analyzeDigests E T m)).map Digest.index).Nodup :=
    (hmapperm.nodup_iff).mpr (List.nodup_range _)
  have hne : (sortAsc (analyzeDigests E T m)).Pairwise
      (fun a b => a.index ≠ b.index) := List.pairwise_map.mp hnodup
  have hlt : (sortAsc (analyzeDigests E T m)).Pairwise
      (fun a b => a.index < b.index) :=
    (hle.and hne).imp fun h2 => Nat.lt_of_le_of_ne h2.1 h2.2
  have hlt2 : (analyzeLoop (postTable E T) (splitUnits m T) 0).Pairwise
      (fun a b => a.index < b.index) := analyzeLoop_pairwise _ _ _
  exact @List.eq_of_perm_of_sorted Digest (fun a b => a.index < b.index)
    ⟨fun a b h1 h2 => absurd h2 (Nat.lt_asymm h1)⟩ _ _ hperm hlt hlt2

theorem splitSepCore_nil (sep : Str) : splitSepCore sep [] = [[]] := by
  simp [splitSepCore]

theorem splitUnits_nil {m : Summary} (hm : sepNonempty m) :
    splitUnits m [] = [[]] := by
  cases m with
  | Paragraph p =>
    cases p <;>
      · rw [splitUnits, splitSep, if_neg (by simp)]
        exact splitSepCore_nil _
  | Sentence => rfl
  | Pattern p =>
    have hp : p ≠ [] := hm
    rw [splitUnits, splitSep, if_neg hp]
    exact splitSepCore_nil _

/-! ### Claim theorems -/

/-- Claim C1: if a word W occurs as a token of the exclusion text, then
no unit's score includes any contribution from occurrences of W (each
unit's score equals the post-exclusion table sum over its tokens with
all W-occurrences dropped), while the returned unit texts are exactly
the split units, W left verbatim in them. -/
theorem exclusion_no_contribution (E T : Str) (m : Summary) (W : Str)
    (hW : W ∈ splitOnPred is_delimiter E) :
    (∀ d ∈ analyzeDigests E T m,
      d.score = tokenSum (postTable E T)
        ((splitOnPred is_delimiter d.text).filter (fun t => t ≠ W)))
    ∧ List.Perm ((analyzeDigests E T m).map Digest.text) (splitUnits m T) := by
  constructor
  · intro d hd
    have hd2 : d ∈ analyzeLoop (postTable E T) (splitUnits m T) 0 :=
      (sortDesc_perm _).mem_iff.mp hd
    have hs := analyzeLoop_scores _ _ _ 0 (SameD.refl _) d hd2
    rw [hs]
    have h0 : (tableFind (postTable E T) W).getD 0 = 0 := by
      rw [tableFind_postTable, if_pos hW]
      rfl
    exact tokenSum_filter_ne _ _ h0 _
  · have h := (sortDesc_perm
      (analyzeLoop (postTable E T) (splitUnits m T) 0)).map Digest.text
    rw [analyzeLoop_texts] at h
    exact h

/-- Witness for C1 at exclusion "the", body "the cat", Sentence mode:
the single unit scores 1 (only "cat" counts) and the unit text is kept
verbatim. -/
theorem exclusion_no_contribution_witness :
    (⟨"the cat".data, 1, 0⟩ : Digest).score =
      tokenSum (postTable ("the".data) ("the cat".data))
        ((splitOnPred is_delimiter ("the cat".data)).filter (fun t => t ≠ "the".data))
    ∧ List.Perm
        ((analyzeDigests ("the".data) ("the cat".data) Summary.Sentence).map Digest.text)
        (splitUnits Summary.Sentence ("the cat".data)) := by
  have h := exclusion_no_contribution ("the".data) ("the cat".data)
    Summary.Sentence ("the".data) (by decide)
  exact ⟨h.1 ⟨"the cat".data, 1, 0⟩ (by decide), h.2⟩

/-- Claim C2: every unit's score produced by the insert-on-miss fold
equals the pure spec reference (lookup with default 0 in the
post-exclusion table, summed over the unit's tokens), and this holds
for an arbitrary list of units scored through the loop, so the
zero-entry growth of the table never changes any unit's score in any
scoring order. -/
theorem score_refines_spec (E T : Str) (m : Summary) :
    (∀ d ∈ analyzeDigests E T m, d.score = scoreSpec (postTable E T) d.text)
    ∧ (∀ (units : List Str), ∀ d ∈ analyzeLoop (postTable E T) units 0,
        d.score = scoreSpec (postTable E T) d.text) := by
  have key : ∀ (units : List Str), ∀ d ∈ analyzeLoop (postTable E T) units 0,
      d.score = scoreSpec (postTable E T) d.text := by
    intro units d hd
    exact analyzeLoop_scores units _ _ 0 (SameD.refl _) d hd
  exact ⟨fun d hd => key _ d ((sortDesc_perm _).mem_iff.mp hd), key⟩

/-- Witness for C2 at exclusion "", body "a.a.", Sentence mode: the
top-ranked digest and a digest scored through the loop on a reordered
unit list both match the pure reference score. -/
theorem score_refines_spec_witness :
    (⟨['a'], 2, 0⟩ : Digest).score = scoreSpec (postTable [] ("a.a.".data)) ['a']
    ∧ (⟨['a'], 2, 1⟩ : Digest).score = scoreSpec (postTable [] ("a.a.".data)) ['a'] := by
  have h := score_refines_spec [] ("a.a.".data) Summary.Sentence
  exact ⟨h.1 ⟨['a'], 2, 0⟩ (by decide), h.2 [['b'], ['a']] ⟨['a'], 2, 1⟩ (by decide)⟩

/-- Claim C3: analyze returns exactly as many Digest elements as the
mode's split produces units, and the multiset of index fields is
exactly 0..count-1 with no duplicates. -/
theorem analyze_unit_count_and_indices (E T : Str) (m : Summary) :
    (analyzeDigests E T m).length = (splitUnits m T).length
    ∧ List.Perm ((analyzeDigests E T m).map Digest.index)
        (List.range (splitUnits m T).length) := by
  constructor
  · rw [analyzeDigests, (sortDesc_perm _).length_eq, analyzeLoop_length]
  · have h := (sortDesc_perm
      (analyzeLoop (postTable E T) (splitUnits m T) 0)).map Digest.index
    rw [analyzeLoop_indices, ← List.range_eq_range'] at h
    exact h

/-- Claim C4: the sequence returned by analyze is sorted in
non-increasing order of score: for positions i < j, the score at i is
at least the score at j. -/
theorem analyze_sorted_desc (E T : Str) (m : Summary) (i j : Nat)
    (hi : i < (analyzeDigests E T m).length)
    (hj : j < (analyzeDigests E T m).length) (hij : i < j) :
    ((analyzeDigests E T m).get ⟨j, hj⟩).score ≤
      ((analyzeDigests E T m).get ⟨i, hi⟩).score := by
  have hp : (analyzeDigests E T m).Pairwise rankedBefore :=
    sortDesc_pairwise _ (analyzeLoop_pairwise _ _ _)
  exact rankedBefore_score_le (List.pairwise_iff_get.mp hp ⟨i, hi⟩ ⟨j, hj⟩ hij)

/-- Witness for C4 on the three-sentence body: the second-ranked score
is at most the first-ranked score. -/
theorem analyze_sorted_desc_witness :
    ((analyzeDigests [] ("cat dog.\n\ncat cat bird.".data) Summary.Sentence).get
        ⟨1, by decide⟩).score ≤
      ((analyzeDigests [] ("cat dog.\n\ncat cat bird.".data) Summary.Sentence).get
        ⟨0, by decide⟩).score :=
  analyze_sorted_desc [] ("cat dog.\n\ncat cat bird.".data) Summary.Sentence
    0 1 (by decide) (by decide) (by decide)

/-- Claim C5: run joins the texts of the selected units, and that
selection is listed in non-decreasing originalIndex order, whatever
the score-rank order was. -/
theorem run_output_original_order (E T : Str) (m : Summary) (take : Nat) :
    run (Except.ok E) (Except.ok T) m take =
      Except.ok (List.intercalate ['\n', '\n']
        ((select (analyzeDigests E T m) take).map Digest.text))
    ∧ (select (analyzeDigests E T m) take).Pairwise
        (fun a b => a.index ≤ b.index) :=
  ⟨rfl, sortAsc_pairwise _⟩

/-- Claim C6: run with take = 0 returns the empty string, and run with
take at least the number of units returns all unit texts in original
order joined by a blank line with no trailing separator. -/
theorem run_take_clamping (E T : Str) (m : Summary) (take : Nat) :
    run (Except.ok E) (Except.ok T) m 0 = Except.ok []
    ∧ ((splitUnits m T).length ≤ take →
        run (Except.ok E) (Except.ok T) m take =
          Except.ok (List.intercalate ['\n', '\n'] (splitUnits m T))) := by
  constructor
  · rfl
  · intro h
    have heq : run (Except.ok E) (Except.ok T) m take =
        Except.ok (List.intercalate ['\n', '\n']
          ((select (analyzeDigests E T m) take).map Digest.text)) := rfl
    rw [heq, select_all E T m take h, analyzeLoop_texts]

/-- Witness for C6 on the three-sentence body with take = 0 and
take = 5 ≥ 3 units. -/
theorem run_take_clamping_witness :
    run (Except.ok []) (Except.ok ("cat dog.\n\ncat cat bird.".data))
      Summary.Sentence 0 = Except.ok []
    ∧ run (Except.ok []) (Except.ok ("cat dog.\n\ncat cat bird.".data))
        Summary.Sentence 5 =
      Except.ok (List.intercalate ['\n', '\n']
        (splitUnits Summary.Sentence ("cat dog.\n\ncat cat bird.".data))) := by
  have h := run_take_clamping [] ("cat dog.\n\ncat cat bird.".data)
    Summary.Sentence 5
  exact ⟨h.1, h.2 (by decide)⟩

/-- Claim C7 (counterexample): with exclusion text "the" (which does
not tokenize to contain the empty token) and empty body text, the
single unit's score is 1, not 0 as the claim states; the empty token
of the body is counted once and never removed. -/
theorem analyze_empty_body_score_one :
    (analyzeDigests ("the".data) [] Summary.Sentence).map Digest.score = [1]
    ∧ (analyzeDigests ("the".data) [] Summary.Sentence).map Digest.score ≠ [0] := by
  exact ⟨by decide, by decide⟩

/-- Claim C7 (amended): for every mode whose separator is nonempty and
every exclusion text, analyzing the empty body yields exactly one unit
with empty text; its score is 0 when the empty token occurs among the
exclusion text's tokens (in particular for the empty exclusion text)
and 1 otherwise; and run with take = 1 returns the empty string in
either case. -/
theorem analyze_empty_body (E : Str) (m : Summary) (hm : sepNonempty m) :
    analyzeDigests E [] m =
      [⟨[], if ([] : Str) ∈ splitOnPred is_delimiter E then 0 else 1, 0⟩]
    ∧ run (Except.ok E) (Except.ok []) m 1 = Except.ok [] := by
  have hu : splitUnits m [] = [[]] := splitUnits_nil hm
  have hfind : tableFind (postTable E []) [] =
      if ([] : Str) ∈ splitOnPred is_delimiter E then none else some 1 := by
    rw [tableFind_postTable]
    by_cases h : ([] : Str) ∈ splitOnPred is_delimiter E
    · rw [if_pos h, if_pos h]
    · rw [if_neg h, if_neg h]
      rfl
  have hsc : (scoreUnit (postTable E []) (splitOnPred is_delimiter [])).2 =
      (tableFind (postTable E []) []).getD 0 := by
    rw [scoreUnit_snd _ (SameD.refl _)]
    simp [tokenSum, splitOnPred]
  have hdig : analyzeDigests E [] m =
      [⟨[], (tableFind (postTable E []) []).getD 0, 0⟩] := by
    rw [analyzeDigests, hu]
    simp only [analyzeLoop]
    rw [hsc]
    rfl
  constructor
  · rw [hdig, hfind]
    by_cases h : ([] : Str) ∈ splitOnPred is_delimiter E
    · simp [h]
    · simp [h]
  · have heq : run (Except.ok E) (Except.ok []) m 1 =
        Except.ok (List.intercalate ['\n', '\n']
          ((select (analyzeDigests E [] m) 1).map Digest.text)) := rfl
    rw [heq, hdig]
    rfl

/-- Witness for the amended C7 at exclusion "the", Sentence mode. -/
theorem analyze_empty_body_witness :
    analyzeDigests ("the".data) [] Summary.Sentence =
      [⟨[], if ([] : Str) ∈ splitOnPred is_delimiter ("the".data) then 0 else 1, 0⟩]
    ∧ run (Except.ok ("the".data)) (Except.ok []) Summary.Sentence 1 =
        Except.ok [] :=
  analyze_empty_body ("the".data) Summary.Sentence True.intro

/-- Claim C8: the concrete Sentence-mode scenario: body
"cat dog.\n\ncat cat bird.", empty exclusion; three units with scores
4, 7, 0, ranked unit1, unit0, unit2; run with take = 2 yields unit0's
text, the join separator, then unit1's text. -/
theorem concrete_scenario_sentence :
    analyzeDigests [] ("cat dog.\n\ncat cat bird.".data) Summary.Sentence =
      [⟨"\n\ncat cat bird".data, 7, 1⟩, ⟨"cat dog".data, 4, 0⟩, ⟨[], 0, 2⟩]
    ∧ run (Except.ok []) (Except.ok ("cat dog.\n\ncat cat bird.".data))
        Summary.Sentence 2 =
      Except.ok ("cat dog\n\n\n\ncat cat bird".data) := by
  exact ⟨by decide, by rfl⟩

/-- Claim C9: analyze always returns Ok; run fails exactly when one of
the two reads fails, surfacing the read error unchanged, the exclusion
read's error taking precedence; with both reads Ok, run returns Ok. -/
theorem analyze_run_error_behavior (m : Summary) (take : Nat) :
    (∀ E T : Str, analyze E T m = Except.ok (analyzeDigests E T m))
    ∧ (∀ (e : IOErr) (rt : Except IOErr Str),
        run (Except.error e) rt m take = Except.error e)
    ∧ (∀ (E : Str) (e : IOErr),
        run (Except.ok E) (Except.error e) m take = Except.error e)
    ∧ (∀ E T : Str, ∃ s, run (Except.ok E) (Except.ok T) m take = Except.ok s) := by
  refine ⟨fun E T => rfl, fun e rt => ?_, fun E e => rfl, fun E T => ⟨_, rfl⟩⟩
  cases rt <;> rfl

/-- Claim C10: the descending sort is stable: among equal-score
digests, the one with the smaller original index comes first in the
analyze output. -/
theorem analyze_sort_stable (E T : Str) (m : Summary) (i j : Nat)
    (hi : i < (analyzeDigests E T m).length)
    (hj : j < (analyzeDigests E T m).length) (hij : i < j)
    (hs : ((analyzeDigests E T m).get ⟨i, hi⟩).score =
      ((analyzeDigests E T m).get ⟨j, hj⟩).score) :
    ((analyzeDigests E T m).get ⟨i, hi⟩).index <
      ((analyzeDigests E T m).get ⟨j, hj⟩).index := by
  have hp : (analyzeDigests E T m).Pairwise rankedBefore :=
    sortDesc_pairwise _ (analyzeLoop_pairwise _ _ _)
  rcases List.pairwise_iff_get.mp hp ⟨i, hi⟩ ⟨j, hj⟩ hij with h | h
  · exact absurd hs (Nat.ne_of_gt h)
  · exact h.2

/-- Witness for C10 on body "a.a." whose first two sentences tie with
score 2: their original order is preserved. -/
theorem analyze_sort_stable_witness :
    ((analyzeDigests [] ("a.a.".data) Summary.Sentence).get ⟨0, by decide⟩).index <
      ((analyzeDigests [] ("a.a.".data) Summary.Sentence).get ⟨1, by decide⟩).index :=
  analyze_sort_stable [] ("a.a.".data) Summary.Sentence 0 1
    (by decide) (by decide) (by decide) (by decide)
